import Mathlib

/-!
Verification development for the music-accompaniment generator
(`MosabMohamed.py`).  The Python source is shallowly embedded: pure
functions become Lean functions over `ℤ`/`ℕ`/`ℚ` (Python floats are
modelled by exact rationals), fallible code returns `Option`, and the
random draws of the genetic operators are passed in explicitly as
oracle functions, so that every operator is a pure function of its
inputs and of the random choices made.
-/

namespace Accomp

/-- Global constant `quarter_time = 384`, the tick length of one quarter slot. -/
def quarter_time : ℤ := 384

/-- The fixed 12-entry chromatic name list `notes` from the source. -/
def notes : List String :=
  ["C", "C#", "D", "D#", "E", "F"] ++ ["F#", "G", "G#", "A", "A#", "B"]

/-- Default used for (never-reached) out-of-range list accesses of `notes`. -/
def defaultNote : String := "C"

/-- The note-name lookup loop inside `note_to_midi_number`: `note_number`
starts at `0` and is set to the index of the first matching entry of
`notes`; when no entry matches it stays `0`. -/
def noteNumber (note : String) : ℕ :=
  match notes.findIdx? (fun n => n == note) with
  | some i => i
  | none => 0

/-- Embedding of `note_to_midi_number(note, octave)`:
returns `octave * 12 + note_number`. -/
def note_to_midi_number (note : String) (octave : ℕ) : ℕ :=
  octave * 12 + noteNumber note

/-- Embedding of `midi_number_to_note(midi_number)`: `octave = midi_number / 12`
(truncating division, the argument is never negative in valid use),
`note_number = midi_number - octave * 12`, name looked up in `notes`. -/
def midi_number_to_note (midi_number : ℕ) : String × ℕ :=
  (notes.getD (midi_number - (midi_number / 12) * 12) defaultNote, midi_number / 12)

/-- A chord is the ordered triple `(tonic, mediant, dominant)` of pitches. -/
abbrev Chord : Type := ℤ × ℤ × ℤ

/-- An individual is an ordered sequence of chords. -/
abbrev Individual : Type := List Chord

/-- Embedding of `major_triad(root_midi)`. -/
def major_triad (root_midi : ℤ) : Chord := (root_midi, root_midi + 4, root_midi + 7)

/-- Embedding of `minor_triad(root_midi)`. -/
def minor_triad (root_midi : ℤ) : Chord := (root_midi, root_midi + 3, root_midi + 7)

/-- Embedding of `first_inverted_major(root_midi)`. -/
def first_inverted_major (root_midi : ℤ) : Chord := (root_midi + 12, root_midi + 4, root_midi + 7)

/-- Embedding of `first_inverted_minor(root_midi)`. -/
def first_inverted_minor (root_midi : ℤ) : Chord := (root_midi + 12, root_midi + 3, root_midi + 7)

/-- Embedding of `second_inverted_major(root_midi)`. -/
def second_inverted_major (root_midi : ℤ) : Chord := (root_midi + 12, root_midi + 16, root_midi + 7)

/-- Embedding of `second_inverted_minor(root_midi)`. -/
def second_inverted_minor (root_midi : ℤ) : Chord := (root_midi + 12, root_midi + 15, root_midi + 7)

/-- Embedding of `diminished(root_midi)`. -/
def diminished (root_midi : ℤ) : Chord := (root_midi, root_midi + 3, root_midi + 6)

/-- Embedding of `sus2(root_midi)`. -/
def sus2 (root_midi : ℤ) : Chord := (root_midi, root_midi + 2, root_midi + 7)

/-- Embedding of `sus4(root_midi)`. -/
def sus4 (root_midi : ℤ) : Chord := (root_midi, root_midi + 5, root_midi + 7)

/-- Embedding of `rest()`: the sentinel chord `(-1, -1, -1)`. -/
def rest : Chord := (-1, -1, -1)

/-- Embedding of `get_averages(notes_and_times)`: the duration-weighted mean
pitch of a buffer.  The Python code first sums the durations into
`total_time` and then accumulates `note * (duration / total_time)`;
the division raises `ZeroDivisionError` exactly when the buffer is
non-empty and its total duration is `0`, which is modelled by `none`
(an empty buffer performs no division and returns `0.0`). -/
def get_averages (notes_and_times : List (ℤ × ℤ)) : Option ℚ :=
  let total_time : ℤ := notes_and_times.foldl (fun s e => s + e.2) 0
  if total_time = 0 ∧ notes_and_times ≠ [] then none
  else some (notes_and_times.foldl (fun avg e => avg + (e.1 : ℚ) * ((e.2 : ℚ) / (total_time : ℚ))) 0)

/-- Embedding of the inner `while True` loop of `average_notes`: starting
from elapsed time `t` (only reached with `384 ≤ t`), it repeatedly emits
the current pitch `p` as a whole-slot value and subtracts `quarter_time`,
stopping as soon as the remaining time drops below `quarter_time`.
Returns the emitted values and the final remaining time. -/
def spill (p : ℤ) (t : ℤ) : List ℚ × ℤ :=
  if t - quarter_time < quarter_time then ([(p : ℚ)], t - quarter_time)
  else
    match spill p (t - quarter_time) with
    | (l, t3) => ((p : ℚ) :: l, t3)
termination_by t.toNat
decreasing_by
  simp only [quarter_time] at *
  omega

/-- Embedding of the main `for` loop of `average_notes`, with the loop
state (current-slot buffer `averages` and running elapsed `time`) made
explicit.  Gap entries (`pitchOrZero == 0`) only advance `time`; a slot
is closed either exactly (`time == quarter_time`) or by splitting the
current entry (`time > quarter_time`), after which whole leftover slots
are emitted by `spill` and a partial remainder, if non-zero, starts the
next buffer.  A `ZeroDivisionError` of `get_averages` propagates as `none`. -/
def avgLoop : List (ℤ × ℤ) → List (ℤ × ℤ) → ℤ → Option (List ℚ)
  | [], _, _ => some []
  | (p, d) :: melodyRest, averages, time =>
    let t := time + d
    if p = 0 then avgLoop melodyRest averages t
    else if t < quarter_time then avgLoop melodyRest (averages ++ [(p, d)]) t
    else if t = quarter_time then
      (get_averages (averages ++ [(p, d)])).bind (fun a =>
        (avgLoop melodyRest [] 0).map (fun r => a :: r))
    else
      let lastDur := d - (t - quarter_time)
      let t2 := d - lastDur
      (get_averages (averages ++ [(p, lastDur)])).bind (fun a =>
        if quarter_time ≤ t2 then
          (avgLoop melodyRest (if (spill p t2).2 ≠ 0 then [(p, (spill p t2).2)] else [])
              (spill p t2).2).map
            (fun r => a :: ((spill p t2).1 ++ r))
        else
          (avgLoop melodyRest (if t2 ≠ 0 then [(p, t2)] else []) t2).map (fun r => a :: r))

/-- Embedding of `average_notes(original_melody)`: run the quantization
loop from an empty buffer, then subtract the fixed constant `24` from
every emitted slot value. -/
def average_notes (original_melody : List (ℤ × ℤ)) : Option (List ℚ) :=
  (avgLoop original_melody [] 0).map (fun ret => ret.map (fun x => x - 24))

/-- Embedding of `similarity_to_original_melody(individual, target)`:
for each slot index `i < min(len(individual), len(target))`, with chord
`(tonic, mediant, dominant)` and target value `t`, adds
`max(10 - |t - mediant|, 0) * 10 + max(10 - |t - tonic|, 0) * 5 +
max(10 - |t - dominant|, 0) * 5`. -/
def similarity_to_original_melody (individual : Individual) (target : List ℚ) : ℚ :=
  (List.range (min individual.length target.length)).foldl
    (fun score i =>
      score +
        (max (10 - |target.getD i 0 - ((individual.getD i (0, 0, 0)).2.1 : ℚ)|) 0 * 10 +
          max (10 - |target.getD i 0 - ((individual.getD i (0, 0, 0)).1 : ℚ)|) 0 * 5 +
          max (10 - |target.getD i 0 - ((individual.getD i (0, 0, 0)).2.2 : ℚ)|) 0 * 5))
    0

/-- The inner `for j in range(len(possible_chords))` loop of `chord_exists`
with its early `break`: does the chord, reduced mod 12, match any cyclic
diatonic triad `(j, j+2 mod 7, j+4 mod 7)` of the scale (each degree name
converted via the pitch codec at octave 0)?  Python's `%` on a positive
modulus agrees with `Int.emod`. -/
def chordMatches (c : Chord) (possible_chords : List String) : Bool :=
  (List.range possible_chords.length).any (fun j =>
    c.1 % 12 == (note_to_midi_number (possible_chords.getD ((j + 0) % 7) defaultNote) 0 : ℤ) &&
    (note_to_midi_number (possible_chords.getD ((j + 2) % 7) defaultNote) 0 : ℤ) == c.2.1 % 12 &&
    (note_to_midi_number (possible_chords.getD ((j + 4) % 7) defaultNote) 0 : ℤ) == c.2.2 % 12)

/-- Embedding of `chord_exists(individual, possible_chords)`: `+100` per
matching chord, `-100` per non-matching chord. -/
def chord_exists (individual : Individual) (possible_chords : List String) : ℤ :=
  individual.foldl (fun score c => if chordMatches c possible_chords then score + 100 else score - 100) 0

/-- Embedding of `redundant_chords(individual)`: for `i ≥ 2`, if the tonics
of chords `i-2`, `i-1`, `i` are all equal subtract `100` else add `100`;
for `i ≥ 1`, if the tonics of chords `i-1`, `i` are equal add `100` else
subtract `100`.  (The Python inner `for j` loops re-test the same
tonic-only condition `len(individual[i])` times, which is equivalent to
testing it once.) -/
def redundant_chords (individual : Individual) : ℤ :=
  (List.range individual.length).foldl
    (fun score i =>
      let score2 :=
        if 2 ≤ i then
          if (individual.getD (i - 2) (0, 0, 0)).1 = (individual.getD (i - 1) (0, 0, 0)).1 ∧
              (individual.getD (i - 2) (0, 0, 0)).1 = (individual.getD i (0, 0, 0)).1 ∧
              (individual.getD (i - 1) (0, 0, 0)).1 = (individual.getD i (0, 0, 0)).1 then
            score - 100
          else score + 100
        else score
      if 1 ≤ i then
        if (individual.getD (i - 1) (0, 0, 0)).1 = (individual.getD i (0, 0, 0)).1 then score2 + 100
        else score2 - 100
      else score2)
    0

/-- Embedding of `individual_fitness(individual, target, possible_chords)`:
the sum of the three fitness terms. -/
def individual_fitness (individual : Individual) (target : List ℚ)
    (possible_chords : List String) : ℚ :=
  similarity_to_original_melody individual target +
    (chord_exists individual possible_chords : ℚ) +
    (redundant_chords individual : ℚ)

/-- Embedding of the pairing loop of `selection(population, ...)`.  The
random permutation `np.random.permutation(population)` is externalized:
this function consumes the already-permuted `tournament_bracket` and, for
each consecutive pair, keeps the first member exactly when its fitness is
strictly greater than the second member's fitness. -/
def selection (tournament_bracket : List Individual) (target : List ℚ)
    (possible_chords : List String) : List Individual :=
  match tournament_bracket with
  | a :: b :: bracketRest =>
    (if individual_fitness b target possible_chords < individual_fitness a target possible_chords
      then a else b) :: selection bracketRest target possible_chords
  | _ => []

/-- The gene-by-gene child construction inside `crossover`: for gene `i`,
if the coin `flips i` is true (`probability_of_crossover >= 0.5`) child 1
takes parent 1's gene and child 2 takes parent 2's gene, otherwise the
reverse.  The Python loop runs over `range(len(parent1))` indexing both
parents, which is meaningful only for equal-length parents. -/
def crossover_children : Individual → Individual → (ℕ → Bool) → Individual × Individual
  | a :: p1Rest, b :: p2Rest, flips =>
    let r := crossover_children p1Rest p2Rest (fun n => flips (n + 1))
    if flips 0 then (a :: r.1, b :: r.2) else (b :: r.1, a :: r.2)
  | _, _, _ => ([], [])

/-- Embedding of `mutation(individual)`: per gene, the 5%-probability coin
and the freshly drawn random chord are externalized into the oracle `m`:
`m i = some c` means the coin fired at gene `i` and drew chord `c`, and
`m i = none` means it did not fire, leaving the gene unchanged. -/
def mutation : Individual → (ℕ → Option Chord) → Individual
  | [], _ => []
  | c :: indRest, m =>
    (match m 0 with
      | some c2 => c2
      | none => c) :: mutation indRest (fun n => m (n + 1))

/-- Per-pair random data for `crossover`: the per-gene crossover coins and
the two children's mutation oracles. -/
abbrev PairRand : Type := (ℕ → Bool) × (ℕ → Option Chord) × (ℕ → Option Chord)

/-- Embedding of the pairing loop of `crossover(population)`.  The random
permutation is externalized (the input is the already-permuted parent
list) and `rand k` supplies the random data of pair `k`.  Each pair
appends, in order, parent 1, parent 2, the mutated child 1 and the
mutated child 2. -/
def crossover : List Individual → (ℕ → PairRand) → List Individual
  | p1 :: p2 :: parentsRest, rand =>
    p1 :: p2 ::
      mutation (crossover_children p1 p2 (rand 0).1).1 (rand 0).2.1 ::
      mutation (crossover_children p1 p2 (rand 0).1).2 (rand 0).2.2 ::
      crossover parentsRest (fun n => rand (n + 1))
  | _, _ => []

/-- The loop body of `get_best_individual`: replace the running best
exactly when the candidate's fitness is strictly greater than the
running maximum `mx`. -/
def best_step (target : List ℚ) (possible_chords : List String) :
    Individual × ℚ → Individual → Individual × ℚ :=
  fun st ind =>
    if st.2 < individual_fitness ind target possible_chords
    then (ind, individual_fitness ind target possible_chords) else st

/-- Embedding of `get_best_individual(population, average, possible_chords)`:
scan the population with running state `(best_individual, mx)` initialized
to `([], 0)`. -/
def get_best_individual (population : List Individual) (average : List ℚ)
    (possible_chords : List String) : Individual :=
  (population.foldl (best_step average possible_chords) (([] : Individual), (0 : ℚ))).1

/-- The per-mode scale table `major_keys` of `get_possible_chords`. -/
def major_keys : List (String × List String) :=
  [("C", ["C", "D", "E", "F", "G", "A", "B"]),
    ("C#", ["C#", "D#", "E#", "F#", "G#", "A#", "B#"]),
    ("D", ["D", "E", "F#", "G", "A", "B", "C#"]),
    ("D#", ["D#", "F", "G", "G#", "A#", "C", "D"]),
    ("E", ["E", "F#", "G#", "A", "B", "C#", "D#"]),
    ("F", ["F", "G", "A", "A#", "C", "D", "E"]),
    ("F#", ["F#", "G#", "A#", "B", "C#", "D#", "E#"]),
    ("G", ["G", "A", "B", "C", "D", "E", "F#"]),
    ("G#", ["G#", "A#", "B#", "C#", "D#", "E#", "F#"]),
    ("A", ["A", "B", "C#", "D", "E", "F#", "G#"]),
    ("A#", ["A#", "C", "D", "D#", "F", "G", "A"]),
    ("B", ["B", "C#", "D#", "E", "F#", "G#", "A#"])]

/-- The per-mode scale table `minor_keys` of `get_possible_chords`. -/
def minor_keys : List (String × List String) :=
  [("C", ["C", "D", "D#", "F", "G", "G#", "A#"]),
    ("C#", ["C#", "D#", "E", "F#", "G#", "A", "B"]),
    ("D", ["D", "E", "F", "G", "A", "A#", "C"]),
    ("D#", ["D#", "E#", "F#", "G#", "A#", "B", "C#"]),
    ("E", ["E", "F#", "G", "A", "B", "C", "D"]),
    ("F", ["F", "G", "G#", "A#", "C", "C#", "D#"]),
    ("F#", ["F#", "G", "A", "B", "C#", "D", "E"]),
    ("G", ["G", "A", "A#", "C", "D", "D#", "F"]),
    ("G#", ["G#", "A#", "B", "C#", "D#", "E", "F#"]),
    ("A", ["A", "B", "C", "D", "E", "F", "G"]),
    ("A#", ["A#", "B#", "C#", "D#", "E#", "F#", "G#"]),
    ("B", ["B", "C#", "D", "E", "F#", "G", "A"])]

/-- The C-major scale, the `possible_chords` list of the key `C major`. -/
def cMajor : List String := ["C", "D", "E", "F", "G", "A", "B"]

/-- A MIDI message as emitted by `write_output`: on/off flag, note number
and delta time.  The constant fields (`channel=0`, `velocity=50`/`0`) are
omitted since they carry no information. -/
structure MidiMsg where
  isOn : Bool
  note : ℤ
  time : ℤ
deriving DecidableEq

/-- Embedding of the chord-emission loop of `write_output`: for each chord,
if its tonic equals `0` it is treated as a rest (a quarter of deferred
silence is accumulated into `rest_time` and nothing is emitted); otherwise
three note-on messages (tonic with the deferred `rest_time`, then mediant
and dominant at delta 0) and three matching note-off messages (tonic one
quarter later, then mediant and dominant at delta 0) are appended and the
deferred silence is reset. -/
def write_output_chords (best_individual : List Chord) : List MidiMsg :=
  (best_individual.foldl
    (fun (st : List MidiMsg × ℤ) c =>
      if c.1 = 0 then (st.1, st.2 + quarter_time)
      else
        (st.1 ++
          [⟨true, c.1, st.2⟩, ⟨true, c.2.1, 0⟩, ⟨true, c.2.2, 0⟩,
            ⟨false, c.1, quarter_time⟩, ⟨false, c.2.1, 0⟩, ⟨false, c.2.2, 0⟩],
          0))
    ([], 0)).1

theorem roundtrip_aux (name : String) (octave i : ℕ) (hi : i < 12)
    (hnum : noteNumber name = i) (hget : notes.getD i defaultNote = name) :
    midi_number_to_note (note_to_midi_number name octave) = (name, octave) := by
  have h1 : note_to_midi_number name octave = octave * 12 + i := by
    simp [note_to_midi_number, hnum]
  have h2 : (octave * 12 + i) / 12 = octave := by omega
  have h4 : (octave * 12 + i) - ((octave * 12 + i) / 12) * 12 = i := by omega
  rw [h1]
  simp only [midi_number_to_note]
  rw [h4, h2, hget]

/-- Claim C9: for every name in the fixed 12-entry chromatic list and every
octave `o ≥ 0`, converting the pair to a pitch with `note_to_midi_number`
and back with `midi_number_to_note` returns the original name and octave. -/
theorem pitch_roundtrip (note : String) (octave : ℕ) (h : note ∈ notes) :
    midi_number_to_note (note_to_midi_number note octave) = (note, octave) := by
  have h' : note = "C" ∨ note = "C#" ∨ note = "D" ∨ note = "D#" ∨ note = "E" ∨ note = "F" ∨
      note = "F#" ∨ note = "G" ∨ note = "G#" ∨ note = "A" ∨ note = "A#" ∨ note = "B" := by
    simpa [notes] using h
  rcases h' with rfl | rfl | rfl | rfl | rfl | rfl | rfl | rfl | rfl | rfl | rfl | rfl
  · exact roundtrip_aux _ octave 0 (by omega) (by decide) (by decide)
  · exact roundtrip_aux _ octave 1 (by omega) (by decide) (by decide)
  · exact roundtrip_aux _ octave 2 (by omega) (by decide) (by decide)
  · exact roundtrip_aux _ octave 3 (by omega) (by decide) (by decide)
  · exact roundtrip_aux _ octave 4 (by omega) (by decide) (by decide)
  · exact roundtrip_aux _ octave 5 (by omega) (by decide) (by decide)
  · exact roundtrip_aux _ octave 6 (by omega) (by decide) (by decide)
  · exact roundtrip_aux _ octave 7 (by omega) (by decide) (by decide)
  · exact roundtrip_aux _ octave 8 (by omega) (by decide) (by decide)
  · exact roundtrip_aux _ octave 9 (by omega) (by decide) (by decide)
  · exact roundtrip_aux _ octave 10 (by omega) (by decide) (by decide)
  · exact roundtrip_aux _ octave 11 (by omega) (by decide) (by decide)

/-- Witness for C9: the round trip at the concrete pair ("G", 5). -/
theorem pitch_roundtrip_witness : midi_number_to_note (note_to_midi_number "G" 5) = ("G", 5) :=
  pitch_roundtrip "G" 5 (by decide)

/-- Counterexample for C10: the claim says a lookup of a name outside the
chromatic list fails with `InvalidNoteName` rather than returning a pitch
value; in the code, the lookup of the invalid name "H" returns the pitch
value `48` — the very pitch of the valid name "C" at the same octave —
without any failure. -/
theorem note_lookup_no_failure :
    "H" ∉ notes ∧ note_to_midi_number "H" 4 = 48 ∧
      note_to_midi_number "H" 4 = note_to_midi_number "C" 4 := by
  refine ⟨by decide, by decide, by decide⟩

/-- Amended claim C10: for every string `name` that is not one of the 12
chromatic names and every octave, `note_to_midi_number` does not fail: it
silently leaves `note_number` at its initial value `0`, returning the
pitch `octave * 12` as if the name were "C". -/
theorem note_lookup_defaults_to_zero (name : String) (octave : ℕ) (h : name ∉ notes) :
    note_to_midi_number name octave = octave * 12 := by
  have hnone : notes.findIdx? (fun n => n == name) = none := by
    rw [List.findIdx?_eq_none_iff]
    intro x hx
    simp only [beq_eq_false_iff_ne, ne_eq]
    intro hxe
    exact h (hxe ▸ hx)
  simp [note_to_midi_number, noteNumber, hnone]

/-- Witness for the amended C10 at the concrete invalid name "H". -/
theorem note_lookup_defaults_to_zero_witness : note_to_midi_number "H" 3 = 3 * 12 :=
  note_lookup_defaults_to_zero "H" 3 (by decide)

/-- Claim C8 (code bug): the output encoder detects a rest by testing
`tonic == 0`, not the sentinel `(-1,-1,-1)` produced by `rest()`.  On the
failing input `[(-1,-1,-1)]` (a best individual consisting of one rest
chord) the loop emits three note-on and three note-off events for note
`-1` instead of producing no events, while the genuine major triad
`(0,4,7)` at root 0 is silently swallowed as if it were a rest. -/
theorem write_output_rest_bug :
    write_output_chords [rest] =
      [⟨true, -1, 0⟩, ⟨true, -1, 0⟩, ⟨true, -1, 0⟩,
        ⟨false, -1, 384⟩, ⟨false, -1, 0⟩, ⟨false, -1, 0⟩] ∧
      write_output_chords [major_triad 0] = [] := by
  refine ⟨by decide, by decide⟩

theorem get_averages_single (p d : ℤ) (hd : d ≠ 0) : get_averages [(p, d)] = some (p : ℚ) := by
  have htot : ([((p : ℤ), d)].foldl (fun s e => s + e.2) 0) = d := by simp
  simp only [get_averages, htot]
  rw [if_neg (by simp [hd])]
  have hdq : ((d : ℚ)) ≠ 0 := Int.cast_ne_zero.mpr hd
  simp [div_self hdq]

theorem spill_replicate (p : ℤ) :
    ∀ m : ℕ, 1 ≤ m → spill p (384 * (m : ℤ)) = (List.replicate m (p : ℚ), 0)
  | 1, _ => by
    rw [spill]
    norm_num [quarter_time]
  | (m + 2), _ => by
    have harg : 384 * (((m + 2 : ℕ)) : ℤ) - quarter_time = 384 * (((m + 1 : ℕ)) : ℤ) := by
      simp only [quarter_time]; push_cast; ring
    have hc : ¬ (384 * (((m + 1 : ℕ)) : ℤ) < quarter_time) := by
      simp only [quarter_time]; push_cast; omega
    rw [spill, harg, if_neg hc, spill_replicate p (m + 1) (by omega)]
    simp [List.replicate_succ]

/-- Claim C2: for every pitch `p ≠ 0` and every `k ≥ 1`, quantizing the
single-event melody `[(p, k*384)]` emits exactly `k` slot values, each
equal to `p - 24`. -/
theorem quantizer_conservation (p : ℤ) (k : ℕ) (hp : p ≠ 0) (hk : 1 ≤ k) :
    average_notes [(p, 384 * (k : ℤ))] = some (List.replicate k ((p : ℚ) - 24)) := by
  have key : avgLoop [(p, 384 * (k : ℤ))] [] 0 = some (List.replicate k (p : ℚ)) := by
    rcases (by omega : k = 1 ∨ 2 ≤ k) with rfl | hk2
    · simp only [avgLoop]
      rw [if_neg hp]
      rw [if_neg (by norm_num [quarter_time] : ¬((0:ℤ) + 384 * ((1:ℕ):ℤ) < quarter_time))]
      rw [if_pos (by norm_num [quarter_time] : (0:ℤ) + 384 * ((1:ℕ):ℤ) = quarter_time)]
      rw [List.nil_append, get_averages_single p _ (by norm_num)]
      simp [avgLoop]
    · have hkz : (2 : ℤ) ≤ (k : ℤ) := by exact_mod_cast hk2
      simp only [avgLoop]
      rw [if_neg hp]
      rw [if_neg (by simp only [quarter_time]; omega : ¬((0:ℤ) + 384 * (k:ℤ) < quarter_time))]
      rw [if_neg (by simp only [quarter_time]; omega : ¬((0:ℤ) + 384 * (k:ℤ) = quarter_time))]
      have e1 : 384 * (k:ℤ) - ((0:ℤ) + 384 * (k:ℤ) - quarter_time) = 384 := by
        simp only [quarter_time]; ring
      rw [e1, List.nil_append, get_averages_single p 384 (by norm_num)]
      have e3 : 384 * (k:ℤ) - 384 = 384 * (((k - 1 : ℕ)) : ℤ) := by push_cast [hk]; ring
      rw [e3]
      simp only [Option.some_bind]
      rw [if_pos (by simp only [quarter_time]; omega :
        quarter_time ≤ 384 * (((k - 1 : ℕ)) : ℤ))]
      rw [spill_replicate p (k - 1) (by omega)]
      have e4 : (p:ℚ) :: List.replicate (k-1) (p:ℚ) = List.replicate k (p:ℚ) := by
        rw [← List.replicate_succ]
        congr 1
        omega
      simp [e4]
  unfold average_notes
  rw [key]
  simp [List.map_replicate]

/-- Witness for C2 at the concrete input `p = 5`, `k = 2`. -/
theorem quantizer_conservation_witness :
    average_notes [((5:ℤ), 384 * ((2:ℕ) : ℤ))] = some (List.replicate 2 ((5:ℚ) - 24)) :=
  quantizer_conservation 5 2 (by decide) (by decide)

/-- Counterexample for C3: the melody `[(0,384), (5,384)]` is non-empty and
contains the sounding note `(5,384)` (pitch `5 ≠ 0`, positive duration),
yet the quantizer divides by zero on it: the leading gap advances the
elapsed time to exactly one quarter, so the split duration of the slot's
single real entry is `0` and the slot buffer's total duration is `0`. -/
theorem quantizer_divzero_counterexample :
    ((5:ℤ), (384:ℤ)) ∈ [((0:ℤ), (384:ℤ)), ((5:ℤ), (384:ℤ))] ∧ (5:ℤ) ≠ 0 ∧ (0:ℤ) < 384 ∧
      average_notes [((0:ℤ), (384:ℤ)), ((5:ℤ), (384:ℤ))] = none := by decide

theorem get_averages_isSomeTotal (l : List (ℤ × ℤ))
    (h : l.foldl (fun s e => s + e.2) 0 ≠ 0) : (get_averages l).isSome := by
  simp only [get_averages]
  rw [if_neg (by simp [h])]
  simp

theorem avgLoop_isSome : ∀ (melody buf : List (ℤ × ℤ)) (time : ℤ),
    (∀ e ∈ melody, e.1 ≠ 0) → time = buf.foldl (fun s e => s + e.2) 0 →
    (avgLoop melody buf time).isSome
  | [], _, _, _, _ => by simp [avgLoop]
  | (p, d) :: melodyRest, buf, time, hm, hinv => by
    have hp : p ≠ 0 := hm (p, d) (by simp)
    have hmr : ∀ e ∈ melodyRest, e.1 ≠ 0 := fun e he => hm e (by simp [he])
    simp only [avgLoop]
    rw [if_neg hp]
    by_cases h1 : time + d < quarter_time
    · rw [if_pos h1]
      exact avgLoop_isSome melodyRest (buf ++ [(p, d)]) (time + d) hmr
        (by simp [List.foldl_append, hinv])
    · rw [if_neg h1]
      by_cases h2 : time + d = quarter_time
      · rw [if_pos h2]
        have htot : (buf ++ [(p, d)]).foldl (fun s e => s + e.2) 0 ≠ 0 := by
          simp only [List.foldl_append, List.foldl_cons, List.foldl_nil]
          rw [← hinv]
          intro hc
          rw [hc] at h2
          norm_num [quarter_time] at h2
        obtain ⟨a, ha⟩ := Option.isSome_iff_exists.mp (get_averages_isSomeTotal _ htot)
        obtain ⟨r, hr⟩ := Option.isSome_iff_exists.mp
          (avgLoop_isSome melodyRest [] 0 hmr (by simp))
        rw [ha, hr]
        simp
      · rw [if_neg h2]
        have htot : (buf ++ [(p, d - (time + d - quarter_time))]).foldl
            (fun s e => s + e.2) 0 ≠ 0 := by
          simp only [List.foldl_append, List.foldl_cons, List.foldl_nil]
          rw [← hinv]
          simp only [quarter_time]
          omega
        obtain ⟨a, ha⟩ := Option.isSome_iff_exists.mp (get_averages_isSomeTotal _ htot)
        rw [ha]
        simp only [Option.some_bind]
        by_cases h3 : quarter_time ≤ d - (d - (time + d - quarter_time))
        · rw [if_pos h3]
          obtain ⟨r, hr⟩ := Option.isSome_iff_exists.mp
            (avgLoop_isSome melodyRest
              (if (spill p (d - (d - (time + d - quarter_time)))).2 ≠ 0 then
                [(p, (spill p (d - (d - (time + d - quarter_time)))).2)] else [])
              (spill p (d - (d - (time + d - quarter_time)))).2 hmr (by
                have harith : d - (d - (time + d - quarter_time)) = time + d - quarter_time := by
                  ring
                rw [harith]
                rcases eq_or_ne ((spill p (time + d - quarter_time)).2) 0 with hz | hz
                · simp [hz]
                · simp [hz]))
          rw [hr]
          simp
        · rw [if_neg h3]
          obtain ⟨r, hr⟩ := Option.isSome_iff_exists.mp
            (avgLoop_isSome melodyRest
              (if d - (d - (time + d - quarter_time)) ≠ 0 then
                [(p, d - (d - (time + d - quarter_time)))] else [])
              (d - (d - (time + d - quarter_time))) hmr (by
                have harith : d - (d - (time + d - quarter_time)) = time + d - quarter_time := by
                  ring
                rw [harith]
                rcases eq_or_ne (time + d - quarter_time) 0 with hz | hz
                · simp [hz]
                · simp [hz]))
          rw [hr]
          simp

/-- Amended claim C3: gap entries (`pitchOrZero == 0`) only advance the
elapsed time and never enter the buffer; and for every melody consisting
solely of sounding entries (no gaps — a strengthening of the original
"at least one sounding note", forced by the counterexample), the
quantizer never computes a weighted average over a buffer with total
duration `0`, i.e. `average_notes` never divides by zero. -/
theorem quantizer_no_divzero_amended :
    (∀ (d : ℤ) (melodyRest averages : List (ℤ × ℤ)) (time : ℤ),
      avgLoop (((0 : ℤ), d) :: melodyRest) averages time =
        avgLoop melodyRest averages (time + d)) ∧
    ∀ melody : List (ℤ × ℤ), (∀ e ∈ melody, e.1 ≠ 0) → (average_notes melody).isSome := by
  constructor
  · intro d melodyRest averages time
    simp [avgLoop]
  · intro melody h
    simp only [average_notes, Option.isSome_map']
    exact avgLoop_isSome melody [] 0 h (by simp)

/-- Witness for the amended C3 at the concrete gap-free melody `[(60,384)]`. -/
theorem quantizer_no_divzero_witness : (average_notes [((60:ℤ), (384:ℤ))]).isSome :=
  quantizer_no_divzero_amended.2 [((60:ℤ), (384:ℤ))] (by decide)

theorem foldl_add_range (f : ℕ → ℚ) (n : ℕ) :
    ∀ init : ℚ, (List.range n).foldl (fun s i => s + f i) init =
      init + ∑ i ∈ Finset.range n, f i := by
  induction n with
  | zero => intro init; simp
  | succ n ih =>
    intro init
    rw [List.range_succ, List.foldl_append, ih init, Finset.sum_range_succ]
    simp only [List.foldl_cons, List.foldl_nil]
    ring

/-- Claim C6: the melodic-similarity term equals the sum, over the slot
indices shared by individual and target, of
`max(10 - |target[i] - mediant|, 0) * 10 + max(10 - |target[i] - tonic|, 0) * 5 +
max(10 - |target[i] - dominant|, 0) * 5`; moreover a chord tone at distance
10 or more from the target contributes exactly `0` (never a negative
amount), each tone's capped proximity never exceeds `10`, and a tone equal
to the target attains the maximal value `10` (hence `10 * weight` after
weighting). -/
theorem similarity_spec (individual : Individual) (target : List ℚ) :
    (similarity_to_original_melody individual target =
      ∑ i ∈ Finset.range (min individual.length target.length),
        (max (10 - |target.getD i 0 - ((individual.getD i (0, 0, 0)).2.1 : ℚ)|) 0 * 10 +
          max (10 - |target.getD i 0 - ((individual.getD i (0, 0, 0)).1 : ℚ)|) 0 * 5 +
          max (10 - |target.getD i 0 - ((individual.getD i (0, 0, 0)).2.2 : ℚ)|) 0 * 5)) ∧
    (∀ t x : ℚ, 10 ≤ |t - x| → max (10 - |t - x|) 0 = 0) ∧
    (∀ t x : ℚ, max (10 - |t - x|) 0 ≤ 10) ∧
    (∀ t : ℚ, max (10 - |t - t|) 0 = 10) := by
  refine ⟨?_, ?_, ?_, ?_⟩
  · unfold similarity_to_original_melody
    rw [foldl_add_range]
    ring
  · intro t x h
    apply max_eq_right
    linarith
  · intro t x
    have h := abs_nonneg (t - x)
    apply max_le <;> linarith
  · intro t
    simp

/-- Witness for C6: a tone at distance 22 from the target contributes `0`. -/
theorem similarity_spec_witness : max (10 - |(25:ℚ) - 3|) 0 = 0 :=
  (similarity_spec [] []).2.1 25 3 (by norm_num)

theorem chord_fold (pc : List String) : ∀ (ind : List Chord) (init : ℤ),
    ind.foldl (fun score c => if chordMatches c pc then score + 100 else score - 100) init =
      init + (ind.map (fun c => if chordMatches c pc then (100:ℤ) else -100)).sum
  | [], init => by simp
  | c :: indRest, init => by
    simp only [List.foldl_cons, List.map_cons, List.sum_cons]
    rw [chord_fold pc indRest]
    by_cases h : chordMatches c pc
    · simp only [h, if_true]
      ring
    · simp only [h, if_false, Bool.false_eq_true]
      ring

theorem chordMatches_iff (c : Chord) (pc : List String) :
    chordMatches c pc = true ↔
      ∃ j ∈ Finset.range pc.length,
        c.1 % 12 = (note_to_midi_number (pc.getD ((j + 0) % 7) defaultNote) 0 : ℤ) ∧
        (note_to_midi_number (pc.getD ((j + 2) % 7) defaultNote) 0 : ℤ) = c.2.1 % 12 ∧
        (note_to_midi_number (pc.getD ((j + 4) % 7) defaultNote) 0 : ℤ) = c.2.2 % 12 := by
  simp [chordMatches, List.any_eq_true, List.mem_range, Finset.mem_range,
    Bool.and_eq_true, beq_iff_eq, and_assoc]

/-- Claim C7: the scale-membership term adds `+100` for each chord whose
three tones reduced mod 12 match some cyclic diatonic triad (scale degrees
`j, j+2 mod 7, j+4 mod 7`, each name converted at octave 0) and `-100`
otherwise; for the C-major scale the chord `(0,4,7)` scores `+100` and
`(0,4,6)` scores `-100`; and the rest sentinel `(-1,-1,-1)` matches no
triad of any scale of the resolver's tables, so every rest contributes
`-100`. -/
theorem chord_exists_spec :
    (∀ (individual : Individual) (pc : List String),
      chord_exists individual pc =
        (individual.map (fun c =>
          if (∃ j ∈ Finset.range pc.length,
              c.1 % 12 = (note_to_midi_number (pc.getD ((j + 0) % 7) defaultNote) 0 : ℤ) ∧
              (note_to_midi_number (pc.getD ((j + 2) % 7) defaultNote) 0 : ℤ) = c.2.1 % 12 ∧
              (note_to_midi_number (pc.getD ((j + 4) % 7) defaultNote) 0 : ℤ) = c.2.2 % 12)
          then (100:ℤ) else -100)).sum) ∧
    chord_exists [((0:ℤ), 4, 7)] cMajor = 100 ∧
    chord_exists [((0:ℤ), 4, 6)] cMajor = -100 ∧
    (∀ ks ∈ major_keys, chordMatches rest ks.2 = false) ∧
    (∀ ks ∈ minor_keys, chordMatches rest ks.2 = false) := by
  refine ⟨?_, by decide, by decide, by decide, by decide⟩
  intro individual pc
  unfold chord_exists
  rw [chord_fold]
  rw [zero_add]
  congr 1
  apply List.map_congr_left
  intro c _
  by_cases h : chordMatches c pc
  · rw [if_pos h, if_pos ((chordMatches_iff c pc).mp h)]
  · rw [if_neg h, if_neg (fun hex => h ((chordMatches_iff c pc).mpr hex))]

/-- Witness for C7: the rest sentinel matches no triad of the C-major scale. -/
theorem chord_exists_spec_witness :
    chordMatches rest ["C", "D", "E", "F", "G", "A", "B"] = false :=
  chord_exists_spec.2.2.2.1 ("C", ["C", "D", "E", "F", "G", "A", "B"]) (by decide)

theorem sel_length (target : List ℚ) (pc : List String) :
    ∀ bracket : List Individual, (selection bracket target pc).length = bracket.length / 2
  | [] => by simp [selection]
  | [a] => by simp [selection]
  | a :: b :: bracketRest => by
    simp only [selection, List.length_cons]
    rw [sel_length target pc bracketRest]
    omega

theorem sel_get (target : List ℚ) (pc : List String) :
    ∀ (bracket : List Individual) (k : ℕ) (a b : Individual),
      bracket.get? (2 * k) = some a → bracket.get? (2 * k + 1) = some b →
      (individual_fitness b target pc < individual_fitness a target pc →
        (selection bracket target pc).get? k = some a) ∧
      (individual_fitness a target pc ≤ individual_fitness b target pc →
        (selection bracket target pc).get? k = some b)
  | [], k, a, b, ha, hb => by simp at ha
  | [x], k, a, b, ha, hb => by
    rcases k with _ | k
    · simp at hb
    · rw [(by omega : 2 * (k + 1) = (2 * k + 1) + 1), List.get?_cons_succ, List.get?_nil] at ha
      exact absurd ha (by simp)
  | x :: y :: bracketRest, k, a, b, ha, hb => by
    rcases k with _ | k
    · simp only [Nat.mul_zero, List.get?_cons_zero, Option.some_inj] at ha
      simp only [Nat.mul_zero, Nat.zero_add, List.get?_cons_succ, List.get?_cons_zero,
        Option.some_inj] at hb
      subst ha
      subst hb
      constructor
      · intro hlt
        simp only [selection, List.get?_cons_zero, Option.some_inj]
        rw [if_pos hlt]
      · intro hle
        simp only [selection, List.get?_cons_zero, Option.some_inj]
        rw [if_neg (not_lt.mpr hle)]
    · rw [(by omega : 2 * (k + 1) = (2 * k + 1) + 1), List.get?_cons_succ,
        List.get?_cons_succ] at ha
      rw [(by omega : 2 * (k + 1) + 1 = (2 * k + 1 + 1) + 1), List.get?_cons_succ,
        List.get?_cons_succ] at hb
      have h := sel_get target pc bracketRest k a b ha hb
      simp only [selection, List.get?_cons_succ]
      exact h

/-- Claim C4: one round of tournament selection on an even-sized (already
permuted) population returns exactly half as many individuals; for each
consecutive pair `(a, b)` of the permutation the survivor is `a` when its
fitness is strictly higher and `b` otherwise — so a strict winner always
survives and ties keep the second element of the pair. -/
theorem selection_spec (bracket : List Individual) (target : List ℚ) (pc : List String)
    (heven : bracket.length % 2 = 0) :
    (selection bracket target pc).length = bracket.length / 2 ∧
    ∀ (k : ℕ) (a b : Individual),
      bracket.get? (2 * k) = some a → bracket.get? (2 * k + 1) = some b →
      (individual_fitness b target pc < individual_fitness a target pc →
        (selection bracket target pc).get? k = some a) ∧
      (individual_fitness a target pc ≤ individual_fitness b target pc →
        (selection bracket target pc).get? k = some b) :=
  ⟨sel_length target pc bracket, fun k a b ha hb => sel_get target pc bracket k a b ha hb⟩

/-- Witness for C4: a pair whose first member has fitness `-100` and whose
second member has fitness `0` (a tie-free strict comparison) keeps the
second member. -/
theorem selection_spec_witness :
    (selection [[((0:ℤ), 4, 7)], []] [] []).get? 0 = some [] :=
  ((selection_spec [[((0:ℤ), 4, 7)], []] [] [] (by decide)).2 0 [((0:ℤ), 4, 7)] [] rfl rfl).2
    (by norm_num [individual_fitness, similarity_to_original_melody, chord_exists,
      redundant_chords, chordMatches, List.range_succ, List.range_zero])

theorem crossover_children_get :
    ∀ (p1 p2 : Individual) (flips : ℕ → Bool) (i : ℕ), i < p1.length → i < p2.length →
      ((crossover_children p1 p2 flips).1.get? i = p1.get? i ∧
        (crossover_children p1 p2 flips).2.get? i = p2.get? i) ∨
      ((crossover_children p1 p2 flips).1.get? i = p2.get? i ∧
        (crossover_children p1 p2 flips).2.get? i = p1.get? i)
  | [], _, _, i, h1, _ => by simp at h1
  | _ :: _, [], _, i, _, h2 => by simp at h2
  | a :: p1Rest, b :: p2Rest, flips, 0, _, _ => by
    simp only [crossover_children]
    by_cases hf : flips 0
    · rw [if_pos hf]
      left
      simp
    · rw [if_neg hf]
      right
      simp
  | a :: p1Rest, b :: p2Rest, flips, i + 1, h1, h2 => by
    simp only [crossover_children]
    have h := crossover_children_get p1Rest p2Rest (fun n => flips (n + 1)) i
      (by simpa using h1) (by simpa using h2)
    by_cases hf : flips 0
    · rw [if_pos hf]
      simpa using h
    · rw [if_neg hf]
      simpa using h

theorem cross_length : ∀ (parents : List Individual) (rand : ℕ → PairRand),
    parents.length % 2 = 0 → (crossover parents rand).length = 2 * parents.length
  | [], _, _ => by simp [crossover]
  | [x], _, h => by simp at h
  | p1 :: p2 :: parentsRest, rand, h => by
    simp only [crossover, List.length_cons]
    rw [cross_length parentsRest (fun n => rand (n + 1)) (by simp only [List.length_cons] at h; omega)]
    omega

theorem cross_get : ∀ (parents : List Individual) (rand : ℕ → PairRand) (k : ℕ)
      (p1 p2 : Individual),
    parents.get? (2 * k) = some p1 → parents.get? (2 * k + 1) = some p2 →
    (crossover parents rand).get? (4 * k) = some p1 ∧
    (crossover parents rand).get? (4 * k + 1) = some p2 ∧
    (crossover parents rand).get? (4 * k + 2) =
      some (mutation (crossover_children p1 p2 (rand k).1).1 (rand k).2.1) ∧
    (crossover parents rand).get? (4 * k + 3) =
      some (mutation (crossover_children p1 p2 (rand k).1).2 (rand k).2.2)
  | [], _, k, _, _, ha, _ => by simp at ha
  | [x], _, k, _, _, ha, hb => by
    rcases k with _ | k
    · simp at hb
    · rw [(by omega : 2 * (k + 1) = (2 * k + 1) + 1), List.get?_cons_succ, List.get?_nil] at ha
      exact absurd ha (by simp)
  | q1 :: q2 :: parentsRest, rand, 0, p1, p2, ha, hb => by
    simp only [Nat.mul_zero, List.get?_cons_zero, Option.some_inj] at ha
    simp only [Nat.mul_zero, Nat.zero_add, List.get?_cons_succ, List.get?_cons_zero,
      Option.some_inj] at hb
    subst ha
    subst hb
    refine ⟨rfl, rfl, rfl, rfl⟩
  | q1 :: q2 :: parentsRest, rand, k + 1, p1, p2, ha, hb => by
    rw [(by omega : 2 * (k + 1) = (2 * k + 1) + 1), List.get?_cons_succ,
      List.get?_cons_succ] at ha
    rw [(by omega : 2 * (k + 1) + 1 = (2 * k + 1 + 1) + 1), List.get?_cons_succ,
      List.get?_cons_succ] at hb
    have h := cross_get parentsRest (fun n => rand (n + 1)) k p1 p2 ha hb
    refine ⟨?_, ?_, ?_, ?_⟩
    · rw [(by omega : 4 * (k + 1) = (((4 * k) + 1) + 1 + 1) + 1)]
      simp only [crossover, List.get?_cons_succ]
      exact h.1
    · rw [(by omega : 4 * (k + 1) + 1 = ((((4 * k) + 1) + 1 + 1) + 1) + 1)]
      simp only [crossover, List.get?_cons_succ]
      exact h.2.1
    · rw [(by omega : 4 * (k + 1) + 2 = (((((4 * k) + 2) + 1) + 1) + 1) + 1)]
      simp only [crossover, List.get?_cons_succ]
      exact h.2.2.1
    · rw [(by omega : 4 * (k + 1) + 3 = (((((4 * k) + 3) + 1) + 1) + 1) + 1)]
      simp only [crossover, List.get?_cons_succ]
      exact h.2.2.2

/-- Claim C5: crossover on an even-sized (already permuted) selected
population returns exactly twice as many individuals; each pair's two
parents appear unchanged (value-equal, positions 4k and 4k+1, untouched by
the children's subsequent mutation, which is applied only to the freshly
built children at positions 4k+2 and 4k+3); and the pair's two children,
as built before mutation, hold at every gene index exactly the two
parents' genes at that index, one per child, in whichever orientation the
per-gene coin chose. -/
theorem crossover_spec (parents : List Individual) (rand : ℕ → PairRand)
    (heven : parents.length % 2 = 0) :
    (crossover parents rand).length = 2 * parents.length ∧
    ∀ (k : ℕ) (p1 p2 : Individual),
      parents.get? (2 * k) = some p1 → parents.get? (2 * k + 1) = some p2 →
      (crossover parents rand).get? (4 * k) = some p1 ∧
      (crossover parents rand).get? (4 * k + 1) = some p2 ∧
      (crossover parents rand).get? (4 * k + 2) =
        some (mutation (crossover_children p1 p2 (rand k).1).1 (rand k).2.1) ∧
      (crossover parents rand).get? (4 * k + 3) =
        some (mutation (crossover_children p1 p2 (rand k).1).2 (rand k).2.2) ∧
      ∀ i : ℕ, i < p1.length → i < p2.length →
        ((crossover_children p1 p2 (rand k).1).1.get? i = p1.get? i ∧
          (crossover_children p1 p2 (rand k).1).2.get? i = p2.get? i) ∨
        ((crossover_children p1 p2 (rand k).1).1.get? i = p2.get? i ∧
          (crossover_children p1 p2 (rand k).1).2.get? i = p1.get? i) := by
  refine ⟨cross_length parents rand heven, fun k p1 p2 ha hb => ?_⟩
  have h := cross_get parents rand k p1 p2 ha hb
  exact ⟨h.1, h.2.1, h.2.2.1, h.2.2.2,
    fun i h1 h2 => crossover_children_get p1 p2 (rand k).1 i h1 h2⟩

/-- Witness for C5 at a concrete pair of one-chord parents: the first
output position carries parent 1 unchanged. -/
theorem crossover_spec_witness :
    (crossover [[((1:ℤ), 1, 1)], [((2:ℤ), 2, 2)]]
        (fun _ => ((fun _ => true), (fun _ => none), (fun _ => none)))).get? 0 =
      some [((1:ℤ), 1, 1)] :=
  ((crossover_spec [[((1:ℤ), 1, 1)], [((2:ℤ), 2, 2)]]
      (fun _ => ((fun _ => true), (fun _ => none), (fun _ => none)))
      (by decide)).2 0 [((1:ℤ), 1, 1)] [((2:ℤ), 2, 2)] rfl rfl).1

theorem best_fold (average : List ℚ) (pc : List String) :
    ∀ (population : List Individual) (b : Individual) (m : ℚ),
      m ≤ (population.foldl (best_step average pc) (b, m)).2 ∧
      (∀ x ∈ population,
        individual_fitness x average pc ≤ (population.foldl (best_step average pc) (b, m)).2) ∧
      ((population.foldl (best_step average pc) (b, m)) = (b, m) ∨
        ((population.foldl (best_step average pc) (b, m)).1 ∈ population ∧
          individual_fitness (population.foldl (best_step average pc) (b, m)).1 average pc =
            (population.foldl (best_step average pc) (b, m)).2 ∧
          m < (population.foldl (best_step average pc) (b, m)).2))
  | [], b, m => by simp
  | a :: popRest, b, m => by
    simp only [List.foldl_cons]
    by_cases h : m < individual_fitness a average pc
    · have hstep : best_step average pc (b, m) a = (a, individual_fitness a average pc) := by
        simp [best_step, h]
      rw [hstep]
      obtain ⟨ih1, ih2, ih3⟩ := best_fold average pc popRest a (individual_fitness a average pc)
      refine ⟨le_trans (le_of_lt h) ih1, ?_, ?_⟩
      · intro x hx
        rcases List.mem_cons.mp hx with rfl | hx'
        · exact ih1
        · exact ih2 x hx'
      · rcases ih3 with heq | ⟨hmem, hfit, hlt⟩
        · right
          rw [heq]
          exact ⟨List.mem_cons_self a popRest, rfl, h⟩
        · right
          exact ⟨List.mem_cons_of_mem a hmem, hfit, lt_trans h hlt⟩
    · have hstep : best_step average pc (b, m) a = (b, m) := by
        simp [best_step, h]
      rw [hstep]
      obtain ⟨ih1, ih2, ih3⟩ := best_fold average pc popRest b m
      refine ⟨ih1, ?_, ?_⟩
      · intro x hx
        rcases List.mem_cons.mp hx with rfl | hx'
        · exact le_trans (not_lt.mp h) ih1
        · exact ih2 x hx'
      · rcases ih3 with heq | ⟨hmem, hfit, hlt⟩
        · left
          exact heq
        · right
          exact ⟨List.mem_cons_of_mem a hmem, hfit, hlt⟩

/-- Claim C1: whenever some individual of the final population has
strictly positive fitness, result extraction returns an individual whose
fitness is strictly greater than 0 and not less than the fitness of any
other individual in the population; and whenever every individual has
fitness at most 0 (the initial "best" threshold), it returns the empty
individual `[]` (length 0) rather than any member of the population. -/
theorem get_best_individual_spec (population : List Individual) (average : List ℚ)
    (pc : List String) :
    ((∃ x ∈ population, 0 < individual_fitness x average pc) →
      0 < individual_fitness (get_best_individual population average pc) average pc ∧
      ∀ x ∈ population,
        individual_fitness x average pc ≤
          individual_fitness (get_best_individual population average pc) average pc) ∧
    ((∀ x ∈ population, individual_fitness x average pc ≤ 0) →
      get_best_individual population average pc = []) := by
  obtain ⟨h1, h2, h3⟩ := best_fold average pc population [] 0
  constructor
  · rintro ⟨x, hx, hfx⟩
    rcases h3 with heq | ⟨hmem, hfit, hlt⟩
    · exfalso
      have := h2 x hx
      rw [heq] at this
      exact absurd (lt_of_lt_of_le hfx this) (by norm_num)
    · have hbest : get_best_individual population average pc =
          (population.foldl (best_step average pc) ([], 0)).1 := rfl
      rw [hbest, hfit]
      exact ⟨lt_of_le_of_lt (le_refl 0) (by simpa using hlt), h2⟩
  · intro hall
    rcases h3 with heq | ⟨hmem, hfit, hlt⟩
    · have : get_best_individual population average pc =
          (population.foldl (best_step average pc) ([], 0)).1 := rfl
      rw [this, heq]
    · exfalso
      have := hall _ hmem
      rw [hfit] at this
      exact absurd (lt_of_lt_of_le hlt this) (by norm_num)

/-- Witness for C1: a singleton population whose only individual, a
C-major triad with empty target, has fitness `100 > 0`. -/
theorem get_best_individual_spec_witness :
    0 < individual_fitness
        (get_best_individual [[((0:ℤ), 4, 7)]] [] cMajor) [] cMajor :=
  ((get_best_individual_spec [[((0:ℤ), 4, 7)]] [] cMajor).1
    ⟨[((0:ℤ), 4, 7)], by simp, by
      norm_num [individual_fitness, similarity_to_original_melody, chord_exists,
        redundant_chords, List.range_succ, List.range_zero]
      decide⟩).1

end Accomp
